import Mathlib

/-!
Shallow embedding of `gensim/summarization/summarizer.py` (TextRank-style
extractive summarizer, HuppeJ fork) and proofs about it.

Conventions of the embedding:
* Python ints are `Nat`/`Int`; BM25/pagerank weights are `ℚ`.
* A bag-of-words document (`list of (term-id, freq)` in Python, and its
  `tuple(...)` canonical form) is `Doc := List (Nat × Nat)`; `tuple()` and
  `list()` are the identity on this representation.
* External collaborators that the module imports (sentence segmentation,
  BM25 weighting, unreachable-node pruning, pagerank) are passed in as
  function parameters, so every theorem quantifies over them.
* The weighted undirected graph class itself is not part of the shown
  source; it is modelled from the spec's collaborator contract (an
  insertion-ordered node list, and one stored weight per unordered pair
  of nodes, with `has_edge` / `add_edge` / `del_edge` / `edge_weight` /
  `iter_edges`).
-/

/-- A processed sentence (`SyntacticUnit`): display text, normalized token
string, original position.  Modelled from the spec: the class lives in
`gensim.summarization.syntactic_unit`, outside the shown source. -/
structure SyntacticUnit where
  text : String
  token : String
  idx : Nat
deriving DecidableEq, Inhabited

/-- A bag-of-words document: an ordered list of (term-id, term-frequency)
pairs.  Also used for the "hashable" tuple form, which has the same
content. -/
abbrev Doc := List (Nat × Nat)

/-- Helper for `pySplit`: walk the characters, `acc` holding the current
word reversed. -/
def splitWordsAux : List Char → List Char → List String
  | [], acc => if acc.isEmpty then [] else [String.mk acc.reverse]
  | c :: cs, acc =>
    if c = ' ' then
      if acc.isEmpty then splitWordsAux cs [] else String.mk acc.reverse :: splitWordsAux cs []
    else splitWordsAux cs (c :: acc)

/-- Python `str.split()`: whitespace-separated words with empty pieces
dropped (structurally recursive so that proofs can evaluate it). -/
def pySplit (s : String) : List String :=
  splitWordsAux s.data []

/-- Number of words of a sentence, as computed by `len(sentence.text.split())`. -/
def numWords (s : SyntacticUnit) : Nat :=
  (pySplit s.text).length

/-- Total word count of a list of sentences. -/
def sumWords (l : List SyntacticUnit) : Nat :=
  (l.map numWords).sum

/-- Modelled from the spec: the undirected weighted graph collaborator.
`nodes` is the insertion-ordered node list; `edges` stores one entry per
unordered pair (kept as the ordered pair that was passed to `add_edge`)
together with its weight. -/
structure PGraph where
  nodes : List Doc
  edges : List ((Doc × Doc) × ℚ)
deriving DecidableEq

/-- Whether a stored edge entry is the same unordered pair as `e`. -/
def entryMatches (e : Doc × Doc) (ent : (Doc × Doc) × ℚ) : Bool :=
  decide (ent.1 = e ∨ ent.1 = (e.2, e.1))

/-- First stored entry for the unordered pair `e`, if any. -/
def findEntry (g : PGraph) (e : Doc × Doc) : Option ((Doc × Doc) × ℚ) :=
  g.edges.find? (entryMatches e)

/-- Modelled from the spec: `graph.has_edge(edge)` for an undirected graph. -/
def hasEdge (g : PGraph) (e : Doc × Doc) : Bool :=
  (findEntry g e).isSome

/-- Modelled from the spec: `graph.add_edge(edge, w)`. -/
def addEdge (g : PGraph) (e : Doc × Doc) (w : ℚ) : PGraph :=
  { g with edges := g.edges ++ [(e, w)] }

/-- Modelled from the spec: `graph.del_edge(edge)`; removes the stored
weight of the unordered pair `e`. -/
def delEdge (g : PGraph) (e : Doc × Doc) : PGraph :=
  { g with edges := g.edges.filter (fun ent => ! entryMatches e ent) }

/-- Modelled from the spec: `graph.edge_weight(edge)` (0 when absent). -/
def edgeWeight (g : PGraph) (e : Doc × Doc) : ℚ :=
  ((findEntry g e).map Prod.snd).getD 0

/-- Modelled from the spec (`gensim.summarization.commons.build_graph`):
a fresh graph whose nodes are the given sequence with duplicates merged
(an item is added only if not present yet), and no edges. -/
def buildGraph (seq : List Doc) : PGraph :=
  { nodes := seq.foldl (fun ns item => if item ∈ ns then ns else ns ++ [item]) []
    edges := [] }

/-- Source constant `WEIGHT_THRESHOLD = 1.e-3`. -/
def WEIGHT_THRESHOLD : ℚ := mkRat 1 1000

/-- Source constant `INPUT_MIN_LENGTH = 2`. -/
def INPUT_MIN_LENGTH : Nat := 2

/-- Body of the inner loop of `_set_graph_edge_weights`: given the node
list, the outer index `i` and one `(j, weight)` pair of the BM25 row of
`i`, possibly add the edge `(documents[i], documents[j])`. -/
def passInner (documents : List Doc) (i : Nat) (g : PGraph) (jw : Nat × ℚ) : PGraph :=
  if i = jw.1 ∨ jw.2 < WEIGHT_THRESHOLD then g
  else
    let edge := (documents.getD i [], documents.getD jw.1 [])
    if hasEdge g edge then g else addEdge g edge jw.2

/-- The double loop of `_set_graph_edge_weights` over
`enumerate(weights)` and each row, before the all-zero fallback check. -/
def edgeWeightsPass (g : PGraph) (weights : List (List (Nat × ℚ))) : PGraph :=
  let documents := g.nodes
  (weights.enum).foldl (fun acc irow => irow.2.foldl (passInner documents irow.1) acc) g

/-- Body of the inner loop of `_create_valid_graph`: for indices `i ≠ j`,
delete the pre-existing edge between `nodes[i]` and `nodes[j]` (if any)
and add it back with weight 1. -/
def validStep (nodes : List Doc) (i : Nat) (g : PGraph) (j : Nat) : PGraph :=
  if i = j then g
  else
    let edge := (nodes.getD i [], nodes.getD j [])
    let g1 := if hasEdge g edge then delEdge g edge else g
    addEdge g1 edge 1

/-- Embedding of `_create_valid_graph(graph)`: the double loop over all index pairs. -/
def createValidGraph (g : PGraph) : PGraph :=
  let nodes := g.nodes
  (List.range nodes.length).foldl
    (fun acc i => (List.range nodes.length).foldl (validStep nodes i) acc) g

/-- Embedding of `_set_graph_edge_weights(graph)` with the BM25 collaborator passed in:
run the pairwise pass, then if every stored edge weight is zero rebuild
the graph via `_create_valid_graph`. -/
def setGraphEdgeWeights (bm25 : List Doc → List (List (Nat × ℚ))) (graph : PGraph) : PGraph :=
  let g1 := edgeWeightsPass graph (bm25 graph.nodes)
  if g1.edges.all (fun ent => decide (ent.2 = 0)) then createValidGraph g1 else g1

/-- Modelled from the spec: the joint vocabulary of
`gensim.corpora.Dictionary` — term ids in order of first appearance
across all token lists. -/
def buildVocab (tokenLists : List (List String)) : List String :=
  tokenLists.flatten.foldl (fun vs t => if t ∈ vs then vs else vs ++ [t]) []

/-- Modelled from the spec: `Dictionary.doc2bow` — the (term-id, count)
pairs of the tokens, sorted by term id, zero counts omitted. -/
def doc2bow (vocab : List String) (tokens : List String) : Doc :=
  vocab.enum.filterMap (fun it =>
    let c := (tokens.filter (fun t => t = it.2)).length
    if c = 0 then none else some (it.1, c))

/-- Embedding of `_build_corpus(sentences)`: split each sentence's token string on
whitespace, build the joint vocabulary, return one bag-of-words per
sentence in order. -/
def buildCorpus (sentences : List SyntacticUnit) : List Doc :=
  let splitTokens := sentences.map (fun s => pySplit s.token)
  let vocab := buildVocab splitTokens
  splitTokens.map (doc2bow vocab)

/-- Embedding of `_build_hasheable_corpus(corpus)`, i.e. `[tuple(doc) for doc in corpus]`;
on this representation `tuple` is the identity, so this is a fresh
element-wise copy of the list. -/
def buildHasheableCorpus (corpus : List Doc) : List Doc :=
  corpus.map (fun doc => doc)

/-- A Python dict insert on an insertion-ordered association list: if the
key is present its value is updated in place, otherwise the pair is
appended. -/
def dictInsert : List (Doc × SyntacticUnit) → Doc → SyntacticUnit → List (Doc × SyntacticUnit)
  | [], k, v => [(k, v)]
  | e :: rest, k, v => if e.1 = k then (k, v) :: rest else e :: dictInsert rest k v

/-- Python `dict(pairs)`: fold the pairs through `dictInsert` (later pairs
overwrite earlier ones, Python dict semantics). -/
def dictOfPairs (pairs : List (Doc × SyntacticUnit)) : List (Doc × SyntacticUnit) :=
  pairs.foldl (fun d p => dictInsert d p.1 p.2) []

/-- Dict lookup (`d[k]`, as an `Option` instead of `KeyError`). -/
def dictGet (d : List (Doc × SyntacticUnit)) (k : Doc) : Option SyntacticUnit :=
  (d.find? (fun e => decide (e.1 = k))).map Prod.snd

/-- Embedding of `_get_important_sentences(sentences, corpus, important_docs)`:
build the dict from hashable documents to sentences and resolve each
ranked document; `none` models a Python `KeyError`. -/
def getImportantSentences (sentences : List SyntacticUnit) (corpus : List Doc)
    (importantDocs : List Doc) : Option (List SyntacticUnit) :=
  let hashableCorpus := buildHasheableCorpus corpus
  let sentencesByCorpus := dictOfPairs (hashableCorpus.zip sentences)
  importantDocs.mapM (fun doc => dictGet sentencesByCorpus doc)

/-- The stopping test of `_get_sentences_with_word_count`: including a
sentence of `w` words moves the running count strictly farther from the
target. -/
def strictlyWorsens (wc len w : ℤ) : Prop :=
  |wc - len - w| > |wc - len|

instance (wc len w : ℤ) : Decidable (strictlyWorsens wc len w) := by
  unfold strictlyWorsens; infer_instance

/-- The loop of `_get_sentences_with_word_count`, with the running word
count `len` made explicit; returns the accepted prefix. -/
def wordCountLoop (wc : ℤ) : List SyntacticUnit → ℤ → List SyntacticUnit
  | [], _ => []
  | s :: rest, len =>
    if strictlyWorsens wc len (numWords s) then []
    else s :: wordCountLoop wc rest (len + numWords s)

/-- Embedding of `_get_sentences_with_word_count(sentences, word_count)`. -/
def getSentencesWithWordCount (sentences : List SyntacticUnit) (wc : ℤ) : List SyntacticUnit :=
  wordCountLoop wc sentences 0

/-- The while loop of `_get_group_of_best_sentences`; the Python set of
selected sentences is modelled as an insertion-ordered duplicate-free
list `acc` (only its membership and size matter to the claims; Python's
set iteration order is unspecified), and `count = acc.length` mirrors
the source's counter. -/
def groupFill (nb : Nat) : List SyntacticUnit → List SyntacticUnit → Nat → List SyntacticUnit
  | [], acc, _ => acc
  | s :: rest, acc, count =>
    if count ≤ nb then
      if s ∈ acc then groupFill nb rest acc count
      else groupFill nb rest (acc ++ [s]) (count + 1)
    else acc

/-- Embedding of `_get_group_of_best_sentences(sentences, nb_sentences)`.  The empty
input case is a Python `IndexError` (`sentences[0]`), unreachable from
the pipeline; it is mapped to `[]`. -/
def getGroupOfBestSentences (sentences : List SyntacticUnit) (nb : Nat) : List SyntacticUnit :=
  match sentences with
  | [] => []
  | s0 :: rest => groupFill nb rest [s0] 1

/-- Embedding of `_extract_important_sentences(...)`: resolve the ranked documents to
sentences, then apply the word-count policy, else the sentence-count
policy, else return the importance-ordered list unchanged. -/
def extractImportantSentences (sentences : List SyntacticUnit) (corpus : List Doc)
    (importantDocs : List Doc) (wordCount : Option Int) (nbSentences : Option Nat) :
    Option (List SyntacticUnit) :=
  (getImportantSentences sentences corpus importantDocs).map (fun important =>
    match wordCount with
    | some wc => getSentencesWithWordCount important wc
    | none =>
      match nbSentences with
      | some nb => getGroupOfBestSentences important nb
      | none => important)

/-- Embedding of `_format_results(extracted_sentences, split)`: either the list of
display texts or their newline join.  (Dead code in this fork's
`summarize`: the call to it is commented out.) -/
def formatResults (extracted : List SyntacticUnit) (split : Bool) : List String ⊕ String :=
  if split then Sum.inl (extracted.map (fun s => s.text))
  else Sum.inr (String.intercalate "\n" (extracted.map (fun s => s.text)))

/-- Python `int(n * ratio)`, the float product modelled as exact rational
arithmetic: truncation toward zero of `n·ratio = (n·num)/den`, computed
at the integer level so that proofs can evaluate it. -/
def truncMulNat (n : Nat) (rv : ℚ) : ℤ :=
  Int.tdiv ((n : ℤ) * rv.num) (rv.den : ℤ)

/-- The descending-by-score order used to sort the hashable corpus:
`sort(key=lambda doc: pagerank_scores.get(doc, 0), reverse=True)` —
missing documents score 0. -/
def scoreGe (scores : Doc → Option ℚ) (a b : Doc) : Prop :=
  (scores b).getD 0 ≤ (scores a).getD 0

instance (scores : Doc → Option ℚ) : DecidableRel (scoreGe scores) := fun a b => by
  unfold scoreGe; infer_instance

instance (scores : Doc → Option ℚ) : IsTotal Doc (scoreGe scores) :=
  ⟨fun a b => le_total ((scores b).getD 0) ((scores a).getD 0)⟩

instance (scores : Doc → Option ℚ) : IsTrans Doc (scoreGe scores) :=
  ⟨fun _ _ _ h1 h2 => le_trans h2 h1⟩

/-- Embedding of `summarize_corpus(corpus, ratio)`, with the external collaborators
(BM25 weighting, unreachable-node pruning, pagerank) as parameters.
Python's `list.sort` is stable; a stable sort under a decidable total
preorder is a unique function, so the stable `insertionSort` models it
exactly. -/
def summarizeCorpus (bm25 : List Doc → List (List (Nat × ℚ)))
    (prune : PGraph → PGraph) (pagerank : PGraph → Doc → Option ℚ)
    (corpus : List Doc) (rv : ℚ) : List Doc :=
  let hashableCorpus := buildHasheableCorpus corpus
  if corpus.length = 0 then []
  else
    let graph := prune (setGraphEdgeWeights bm25 (buildGraph hashableCorpus))
    if graph.nodes.length < 3 then []
    else
      let scores := pagerank graph
      let sorted := hashableCorpus.insertionSort (scoreGe scores)
      (sorted.take (truncMulNat corpus.length rv).toNat).map (fun doc => doc)

/-- A heap of Python list objects holding documents, for the frame-effect
claim: `summarize_corpus` sorts a freshly allocated list, not its
argument. -/
abbrev Heap := List (List Doc)

/-- Read the list object at reference `r`. -/
def heapRead (h : Heap) (r : Nat) : List Doc :=
  h.getD r []

/-- Allocate a fresh list object, returning the new heap and reference. -/
def heapAlloc (h : Heap) (xs : List Doc) : Heap × Nat :=
  (h ++ [xs], h.length)

/-- Overwrite the list object at reference `r` (used for in-place
`list.sort`). -/
def heapWrite (h : Heap) (r : Nat) (xs : List Doc) : Heap :=
  h.set r xs

/-- Embedding of `summarize_corpus` at the level of list objects: the caller's corpus
is a heap reference; `_build_hasheable_corpus` allocates a fresh list,
and the in-place `sort` writes only to that fresh reference.  Returns
the final heap together with the result. -/
def summarizeCorpusHeap (bm25 : List Doc → List (List (Nat × ℚ)))
    (prune : PGraph → PGraph) (pagerank : PGraph → Doc → Option ℚ)
    (h0 : Heap) (corpusRef : Nat) (rv : ℚ) : Heap × List Doc :=
  let corpus := heapRead h0 corpusRef
  let alloc := heapAlloc h0 (buildHasheableCorpus corpus)
  let h1 := alloc.1
  let hcRef := alloc.2
  if corpus.length = 0 then (h1, [])
  else
    let graph := prune (setGraphEdgeWeights bm25 (buildGraph (heapRead h1 hcRef)))
    if graph.nodes.length < 3 then (h1, [])
    else
      let scores := pagerank graph
      let h2 := heapWrite h1 hcRef ((heapRead h1 hcRef).insertionSort (scoreGe scores))
      (h2, ((heapRead h2 hcRef).take (truncMulNat corpus.length rv).toNat).map (fun doc => doc))

/-- The dynamically-typed result of `summarize`: a list of strings, a
single string, or (what this fork actually returns on the main path) the
raw list of `SyntacticUnit` objects. -/
inductive SummarizeResult
  | strList (xs : List String)
  | str (s : String)
  | units (xs : List SyntacticUnit)
deriving DecidableEq

instance : DecidableEq (Except String SummarizeResult) := fun a b =>
  match a, b with
  | Except.ok x, Except.ok y =>
    if h : x = y then isTrue (by rw [h]) else isFalse (fun hc => h (Except.ok.inj hc))
  | Except.error x, Except.error y =>
    if h : x = y then isTrue (by rw [h]) else isFalse (fun hc => h (Except.error.inj hc))
  | Except.ok _, Except.error _ => isFalse (fun hc => Except.noConfusion hc)
  | Except.error _, Except.ok _ => isFalse (fun hc => Except.noConfusion hc)

/-- Embedding of `summarize(text, ratio, word_count, nb_sentences, split)` with the
sentence-segmentation collaborator `clean` and the corpus-ranking
collaborators as parameters.  `Except.error` models the raised
`ValueError` (and a `KeyError` from `_get_important_sentences`). -/
def summarize (clean : String → List SyntacticUnit)
    (bm25 : List Doc → List (List (Nat × ℚ)))
    (prune : PGraph → PGraph) (pagerank : PGraph → Doc → Option ℚ)
    (text : String) (rv : ℚ) (wordCount : Option Int) (nbSentences : Option Nat)
    (split : Bool) : Except String SummarizeResult :=
  let sentences := clean text
  if sentences.length = 0 then
    Except.ok (if split then SummarizeResult.strList [] else SummarizeResult.str "")
  else if sentences.length = 1 then
    Except.error "input must have more than one sentence"
  else
    let corpus := buildCorpus sentences
    let rvv := if wordCount.isSome ∨ nbSentences.isSome then 1 else rv
    let mostImportantDocs := summarizeCorpus bm25 prune pagerank corpus rvv
    if mostImportantDocs = [] then
      Except.ok (if split then SummarizeResult.strList [] else SummarizeResult.str "")
    else
      match extractImportantSentences sentences corpus mostImportantDocs wordCount nbSentences with
      | none => Except.error "KeyError"
      | some extracted => Except.ok (SummarizeResult.units extracted)

/-! Concrete fixtures used by witnesses and counterexamples. -/

/-- A one-word sentence. -/
def fxA : SyntacticUnit := ⟨"a", "a", 0⟩

/-- A second one-word sentence. -/
def fxB : SyntacticUnit := ⟨"b", "b", 1⟩

/-- A third one-word sentence. -/
def fxC : SyntacticUnit := ⟨"c", "c", 2⟩

/-- A two-word sentence. -/
def fxD : SyntacticUnit := ⟨"b c", "b c", 1⟩

/-- First of two distinct sentences whose normalized tokens collide. -/
def fxCol1 : SyntacticUnit := ⟨"x one", "tok", 0⟩

/-- Second of two distinct sentences whose normalized tokens collide. -/
def fxCol2 : SyntacticUnit := ⟨"x two", "tok", 1⟩

/-- The acceptance test asserted by the spec for the word-count policy:
including a sentence of `w` words strictly reduces the absolute distance
of the running count to the target. -/
def strictlyImproves (wc len w : ℤ) : Prop :=
  |wc - len - w| < |wc - len|

instance (wc len w : ℤ) : Decidable (strictlyImproves wc len w) := by
  unfold strictlyImproves; infer_instance

/-- C7: for every input text in which exactly one sentence is detected,
`summarize` raises the invalid-input `ValueError` and produces no
partial result, regardless of the ratio, word_count, nb_sentences and
split arguments. -/
theorem c7_one_sentence_raises (clean : String → List SyntacticUnit)
    (bm25 : List Doc → List (List (Nat × ℚ))) (prune : PGraph → PGraph)
    (pagerank : PGraph → Doc → Option ℚ) (text : String) (rv : ℚ)
    (wordCount : Option Int) (nbSentences : Option Nat) (split : Bool)
    (h : (clean text).length = 1) :
    summarize clean bm25 prune pagerank text rv wordCount nbSentences split =
      Except.error "input must have more than one sentence" := by
  unfold summarize
  simp [h]

/-- Witness for C7 at a concrete one-sentence segmentation. -/
theorem c7_one_sentence_raises_witness :
    (((fun (_ : String) => [fxA]) "t").length = 1) ∧
    summarize (fun _ => [fxA]) (fun _ => []) id (fun _ _ => none) "t" 1 none none true =
      Except.error "input must have more than one sentence" :=
  ⟨by decide, c7_one_sentence_raises _ _ _ _ "t" 1 none none true (by decide)⟩

/-- C8: for every input text in which zero sentences are detected,
`summarize` never raises and returns an empty result matching the
requested format: an empty list when split is true, an empty string when
split is false. -/
theorem c8_zero_sentences_empty (clean : String → List SyntacticUnit)
    (bm25 : List Doc → List (List (Nat × ℚ))) (prune : PGraph → PGraph)
    (pagerank : PGraph → Doc → Option ℚ) (text : String) (rv : ℚ)
    (wordCount : Option Int) (nbSentences : Option Nat)
    (h : (clean text).length = 0) :
    summarize clean bm25 prune pagerank text rv wordCount nbSentences true =
      Except.ok (SummarizeResult.strList []) ∧
    summarize clean bm25 prune pagerank text rv wordCount nbSentences false =
      Except.ok (SummarizeResult.str "") := by
  unfold summarize
  simp [h]

/-- Witness for C8 at a concrete zero-sentence segmentation. -/
theorem c8_zero_sentences_empty_witness :
    (((fun (_ : String) => ([] : List SyntacticUnit)) "t").length = 0) ∧
    (summarize (fun _ => []) (fun _ => []) id (fun _ _ => none) "t" 1 none none true =
        Except.ok (SummarizeResult.strList []) ∧
      summarize (fun _ => []) (fun _ => []) id (fun _ _ => none) "t" 1 none none false =
        Except.ok (SummarizeResult.str "")) :=
  ⟨by decide, c8_zero_sentences_empty _ _ _ _ "t" 1 none none (by decide)⟩

/-- C1: the claim is violated by the code — on the main path `summarize`
returns the raw list of `SyntacticUnit` objects (the
`_format_results(extracted_sentences, split)` call is commented out), so
with `split=True` the result is not a list of display-text strings, and
with `split=False` it is not a newline-joined string.  Here a
three-sentence input with a non-empty ranked result yields the `units`
constructor for both values of `split`. -/
theorem c1_summarize_ignores_split_bug :
    summarize (fun _ => [fxA, fxB, fxC]) (fun _ => []) id (fun _ _ => none)
        "text" (mkRat 1 1) none none true = Except.ok (SummarizeResult.units [fxA, fxB, fxC]) ∧
    summarize (fun _ => [fxA, fxB, fxC]) (fun _ => []) id (fun _ _ => none)
        "text" (mkRat 1 1) none none false = Except.ok (SummarizeResult.units [fxA, fxB, fxC]) ∧
    (∀ xs : List String, SummarizeResult.units [fxA, fxB, fxC] ≠ SummarizeResult.strList xs) ∧
    (∀ s : String, SummarizeResult.units [fxA, fxB, fxC] ≠ SummarizeResult.str s) := by
  refine ⟨by decide, by decide, ?_, ?_⟩
  · intro xs h
    cases h
  · intro s h
    cases h

/-- C2: the claim is violated by the code — the loop of
`_get_group_of_best_sentences` keeps adding while `count <= nb_sentences`
with `count` already counting the pre-seeded top sentence, so with
`nb_sentences = 1` and two distinct sentences it returns 2 sentences,
not `min(1, 2) = 1`. -/
theorem c2_nb_sentences_off_by_one_bug :
    (getGroupOfBestSentences [fxA, fxB] 1).length = 2 ∧
    min 1 ([fxA, fxB].dedup.length) = 1 ∧
    fxA ≠ fxB := by decide

/-- Counterexample to C3 as stated: with target 2 and word counts
`[1, 2]`, the second sentence is accepted although accepting it leaves
the absolute distance unchanged (1 to 1) rather than strictly reducing
it; the claim would require stopping after the first sentence. -/
theorem c3_word_count_cex :
    getSentencesWithWordCount [fxA, fxD] 2 = [fxA, fxD] ∧
    ¬ strictlyImproves 2 (numWords fxA) (numWords fxD) ∧
    getSentencesWithWordCount [fxA, fxD] 2 ≠ [fxA] := by decide

/-- Counterexample to C4 as stated: two distinct sentences with colliding
token strings produce value-identical documents, and the selector map
resolves the colliding key to the SECOND (last) sentence, not the first. -/
theorem c4_first_writer_cex :
    buildCorpus [fxCol1, fxCol2] = [[(0, 1)], [(0, 1)]] ∧
    getImportantSentences [fxCol1, fxCol2] (buildCorpus [fxCol1, fxCol2]) [[(0, 1)]] =
      some [fxCol2] ∧
    fxCol2 ≠ fxCol1 := by decide

/-! Helper lemmas for the word-count selector. -/

@[simp] lemma sumWords_nil : sumWords [] = 0 := rfl

@[simp] lemma sumWords_cons (a : SyntacticUnit) (l : List SyntacticUnit) :
    sumWords (a :: l) = numWords a + sumWords l := rfl

/-- Characterization of the word-count loop for an arbitrary running
count `len`: the result is a prefix, every accepted step does not
strictly worsen the distance to the target, and if anything is left the
first remaining sentence strictly worsens it. -/
lemma wordCountLoop_spec (wc : ℤ) : ∀ (sentences : List SyntacticUnit) (len : ℤ),
    ∃ rest, sentences = wordCountLoop wc sentences len ++ rest ∧
      (∀ k, k < (wordCountLoop wc sentences len).length →
        ¬ strictlyWorsens wc (len + sumWords ((wordCountLoop wc sentences len).take k))
          (numWords ((wordCountLoop wc sentences len).getD k default))) ∧
      (rest = [] ∨ ∃ s rest2, rest = s :: rest2 ∧
        strictlyWorsens wc (len + sumWords (wordCountLoop wc sentences len)) (numWords s))
  | [], len => by
    refine ⟨[], by simp [wordCountLoop], ?_, Or.inl rfl⟩
    intro k hk
    simp [wordCountLoop] at hk
  | s :: tl, len => by
    by_cases h : strictlyWorsens wc len (numWords s)
    · refine ⟨s :: tl, by simp [wordCountLoop, h], ?_, ?_⟩
      · intro k hk
        simp [wordCountLoop, h] at hk
      · right
        exact ⟨s, tl, rfl, by simpa [wordCountLoop, h] using h⟩
    · obtain ⟨rest, heq, hsteps, hstop⟩ := wordCountLoop_spec wc tl (len + numWords s)
      refine ⟨rest, ?_, ?_, ?_⟩
      · simpa [wordCountLoop, h] using heq
      · intro k hk
        simp only [wordCountLoop, h, if_false, List.length_cons] at hk ⊢
        match k with
        | 0 => simpa using h
        | Nat.succ m =>
          have hm : m < (wordCountLoop wc tl (len + ↑(numWords s))).length :=
            Nat.lt_of_succ_lt_succ hk
          have := hsteps m hm
          simpa [add_assoc] using this
      · rcases hstop with h1 | ⟨s2, rest2, hr, hw⟩
        · exact Or.inl h1
        · refine Or.inr ⟨s2, rest2, hr, ?_⟩
          simpa [wordCountLoop, h, add_assoc] using hw

/-- C3 (amended): the word-count selection walks the importance-ordered
list from an empty running count and accepts a candidate exactly when
accepting it does not strictly increase the absolute distance between
the running word count and the target (ties are accepted); at the first
candidate that strictly increases this distance it stops and returns
exactly the sentences accepted so far (a prefix of the list). -/
theorem c3_word_count_ties_stop (sentences : List SyntacticUnit) (wc : ℤ) :
    ∃ rest, sentences = getSentencesWithWordCount sentences wc ++ rest ∧
      (∀ k, k < (getSentencesWithWordCount sentences wc).length →
        ¬ strictlyWorsens wc (sumWords ((getSentencesWithWordCount sentences wc).take k))
          (numWords ((getSentencesWithWordCount sentences wc).getD k default))) ∧
      (rest = [] ∨ ∃ s rest2, rest = s :: rest2 ∧
        strictlyWorsens wc (sumWords (getSentencesWithWordCount sentences wc)) (numWords s)) := by
  have := wordCountLoop_spec wc sentences 0
  simpa [getSentencesWithWordCount] using this

/-- Witness for C3 (amended) at the counterexample input. -/
theorem c3_word_count_ties_stop_witness :
    ∃ rest, [fxA, fxD] = getSentencesWithWordCount [fxA, fxD] 2 ++ rest ∧
      (∀ k, k < (getSentencesWithWordCount [fxA, fxD] 2).length →
        ¬ strictlyWorsens 2 (sumWords ((getSentencesWithWordCount [fxA, fxD] 2).take k))
          (numWords ((getSentencesWithWordCount [fxA, fxD] 2).getD k default))) ∧
      (rest = [] ∨ ∃ s rest2, rest = s :: rest2 ∧
        strictlyWorsens 2 (sumWords (getSentencesWithWordCount [fxA, fxD] 2)) (numWords s)) :=
  c3_word_count_ties_stop [fxA, fxD] 2

/-! Helper lemmas for the Python dict model. -/

/-- Unfolding `find?` over a cons cell for the key-equality predicate. -/
lemma find?_cons_pair (a : Doc × SyntacticUnit) (l : List (Doc × SyntacticUnit)) (k : Doc) :
    List.find? (fun e => decide (e.1 = k)) (a :: l) =
      if a.1 = k then some a else List.find? (fun e => decide (e.1 = k)) l := by
  by_cases h : a.1 = k
  · rw [if_pos h, List.find?_cons_of_pos]
    simpa using h
  · rw [if_neg h, List.find?_cons_of_neg]
    simpa using h

/-- Looking up in a dict after an insert: the inserted key returns the new
value, other keys are unaffected. -/
lemma dictGet_dictInsert (d : List (Doc × SyntacticUnit)) (k : Doc) (v : SyntacticUnit)
    (k2 : Doc) :
    dictGet (dictInsert d k v) k2 = if k2 = k then some v else dictGet d k2 := by
  induction d with
  | nil =>
    by_cases h : k2 = k
    · subst h
      simp [dictInsert, dictGet, find?_cons_pair]
    · have h2 : ¬ k = k2 := fun hh => h hh.symm
      simp [dictInsert, dictGet, find?_cons_pair, h, h2]
  | cons e rest ih =>
    by_cases he : e.1 = k
    · by_cases h : k2 = k
      · subst h
        simp [dictInsert, dictGet, he, find?_cons_pair]
      · have h2 : ¬ k = k2 := fun hh => h hh.symm
        have hek2 : ¬ e.1 = k2 := by rw [he]; exact h2
        simp [dictInsert, dictGet, he, find?_cons_pair, h, h2, hek2]
    · by_cases hek : e.1 = k2
      · have h : ¬ k2 = k := by
          intro hh
          exact he (hh ▸ hek)
        simp [dictInsert, dictGet, he, find?_cons_pair, hek, h]
      · simp only [dictInsert, if_neg he, dictGet, find?_cons_pair, if_neg hek]
        simp only [dictGet] at ih
        exact ih

/-- The dict built from a pair list resolves a key to the value of the
LAST pair carrying that key. -/
lemma dictGet_dictOfPairs (l : List (Doc × SyntacticUnit)) (k : Doc) :
    dictGet (dictOfPairs l) k =
      (l.reverse.find? (fun p => decide (p.1 = k))).map Prod.snd := by
  induction l using List.reverseRecOn with
  | nil => simp [dictOfPairs, dictGet]
  | append_singleton l p ih =>
    have hfold : dictOfPairs (l ++ [p]) = dictInsert (dictOfPairs l) p.1 p.2 := by
      simp [dictOfPairs, List.foldl_append]
    rw [hfold, dictGet_dictInsert, List.reverse_append]
    simp only [List.reverse_singleton, List.singleton_append, find?_cons_pair]
    by_cases h : p.1 = k
    · simp [h]
    · have h2 : ¬ k = p.1 := fun hh => h hh.symm
      simp [h, h2, ih]

/-- C4 (amended): when two or more sentences share the same hashable
document key, the selector map built by `dict(zip(...))` associates the
colliding key with the LAST such sentence in the original sentence order
(last-writer-wins, Python dict semantics), so every ranked document with
that key resolves to that last sentence. -/
theorem c4_collision_last_writer_wins (corpus : List Doc) (sentences : List SyntacticUnit) :
    (∀ doc : Doc,
      dictGet (dictOfPairs ((buildHasheableCorpus corpus).zip sentences)) doc =
        (((buildHasheableCorpus corpus).zip sentences).reverse.find?
          (fun p => decide (p.1 = doc))).map Prod.snd) ∧
    (∀ importantDocs : List Doc,
      getImportantSentences sentences corpus importantDocs =
        importantDocs.mapM (fun doc =>
          (((buildHasheableCorpus corpus).zip sentences).reverse.find?
            (fun p => decide (p.1 = doc))).map Prod.snd)) := by
  constructor
  · intro doc
    exact dictGet_dictOfPairs _ doc
  · intro importantDocs
    have hf : (fun doc => dictGet (dictOfPairs ((buildHasheableCorpus corpus).zip sentences)) doc)
        = fun doc => (((buildHasheableCorpus corpus).zip sentences).reverse.find?
            (fun p => decide (p.1 = doc))).map Prod.snd :=
      funext fun doc => dictGet_dictOfPairs _ doc
    simp only [getImportantSentences]
    rw [hf]

/-! Generic fold lemmas used for the graph loops. -/

/-- A predicate preserved by every step of a fold holds of the result. -/
lemma foldl_preserve {σ π : Type _} {Q : σ → Prop} {f : σ → π → σ} :
    ∀ (l : List π) (s : σ), (∀ s2 x, x ∈ l → Q s2 → Q (f s2 x)) → Q s → Q (l.foldl f s)
  | [], _, _, hs => hs
  | x :: tl, s, hstep, hs =>
    foldl_preserve tl (f s x) (fun s2 y hy => hstep s2 y (List.mem_cons_of_mem _ hy))
      (hstep s x (List.mem_cons_self _ _) hs)

/-- A predicate established unconditionally by some step of a fold and
preserved by every step holds of the result. -/
lemma foldl_establish {σ π : Type _} {Q : σ → Prop} {f : σ → π → σ} (p : π) :
    ∀ (l : List π) (s : σ), p ∈ l → (∀ s2, Q (f s2 p)) →
      (∀ s2 x, x ∈ l → Q s2 → Q (f s2 x)) → Q (l.foldl f s)
  | [], _, hp, _, _ => absurd hp (List.not_mem_nil p)
  | x :: tl, s, hp, hest, hstep => by
    rcases List.mem_cons.1 hp with h | h
    · subst h
      exact foldl_preserve tl (f s p)
        (fun s2 y hy => hstep s2 y (List.mem_cons_of_mem _ hy)) (hest s)
    · exact foldl_establish p tl (f s x) h hest
        (fun s2 y hy => hstep s2 y (List.mem_cons_of_mem _ hy))

/-- Flattening a nested fold over an outer list and per-element inner
lists into a single fold over the flattened pair list. -/
lemma foldl_foldl_flat {σ β γ : Type _} (f : β → σ → γ → σ) :
    ∀ (outer : List β) (inner : β → List γ) (s : σ),
      outer.foldl (fun acc i => (inner i).foldl (f i) acc) s =
        (outer.flatMap (fun i => (inner i).map (fun j => (i, j)))).foldl
          (fun acc p => f p.1 acc p.2) s
  | [], _, _ => rfl
  | i :: tl, inner, s => by
    have h1 : (List.map (fun j => (i, j)) (inner i)).foldl (fun acc p => f p.1 acc p.2) s
        = (inner i).foldl (f i) s := by
      rw [List.foldl_map]
    rw [List.foldl_cons, List.flatMap_cons, List.foldl_append, h1,
      ← foldl_foldl_flat f tl inner]

/-- Two pointwise-equal predicates find the same first match. -/
lemma find?_congr {α : Type _} (p q : α → Bool) (h : ∀ a, p a = q a) :
    ∀ l : List α, l.find? p = l.find? q
  | [] => rfl
  | a :: tl => by
    rw [List.find?_cons, List.find?_cons, h a, find?_congr p q h tl]

/-- Filtering by a predicate that keeps every `p`-match does not change
the first `p`-match. -/
lemma find?_filter_of_imp {α : Type _} {p q : α → Bool} (h : ∀ a, p a = true → q a = true) :
    ∀ l : List α, (l.filter q).find? p = l.find? p
  | [] => rfl
  | a :: tl => by
    by_cases hq : q a = true
    · rw [List.filter_cons_of_pos hq, List.find?_cons, List.find?_cons]
      cases hpa : p a
      · exact find?_filter_of_imp h tl
      · rfl
    · have hp : ¬ p a = true := fun hpa => hq (h a hpa)
      rw [List.filter_cons_of_neg hq, List.find?_cons_of_neg _ hp]
      exact find?_filter_of_imp h tl

/-! Helper lemmas about the graph operations. -/

lemma entryMatches_swap (u v : Doc) (ent : (Doc × Doc) × ℚ) :
    entryMatches (u, v) ent = entryMatches (v, u) ent := by
  show decide (ent.1 = (u, v) ∨ ent.1 = (v, u)) = decide (ent.1 = (v, u) ∨ ent.1 = (u, v))
  exact decide_eq_decide.mpr or_comm

lemma findEntry_swap (g : PGraph) (u v : Doc) :
    findEntry g (u, v) = findEntry g (v, u) := by
  unfold findEntry
  exact find?_congr _ _ (entryMatches_swap u v) g.edges

lemma addEdge_nodes (g : PGraph) (e : Doc × Doc) (w : ℚ) : (addEdge g e w).nodes = g.nodes := rfl

lemma delEdge_nodes (g : PGraph) (e : Doc × Doc) : (delEdge g e).nodes = g.nodes := rfl

lemma findEntry_addEdge_of_some (g : PGraph) (e e2 : Doc × Doc) (w : ℚ)
    (r : (Doc × Doc) × ℚ) (h : findEntry g e = some r) :
    findEntry (addEdge g e2 w) e = some r := by
  unfold findEntry at h
  unfold findEntry addEdge
  rw [List.find?_append, h]
  rfl

lemma findEntry_addEdge_of_none_match (g : PGraph) (e e2 : Doc × Doc) (w : ℚ)
    (hn : findEntry g e = none) (hm : entryMatches e (e2, w) = true) :
    findEntry (addEdge g e2 w) e = some (e2, w) := by
  unfold findEntry at hn
  unfold findEntry addEdge
  rw [List.find?_append, hn, List.find?_cons_of_pos _ hm]
  rfl

lemma findEntry_addEdge_of_none_nomatch (g : PGraph) (e e2 : Doc × Doc) (w : ℚ)
    (hn : findEntry g e = none) (hm : ¬ entryMatches e (e2, w) = true) :
    findEntry (addEdge g e2 w) e = none := by
  unfold findEntry at hn
  unfold findEntry addEdge
  rw [List.find?_append, hn, List.find?_cons_of_neg _ hm]
  rfl

lemma findEntry_delEdge_self (g : PGraph) (e : Doc × Doc) :
    findEntry (delEdge g e) e = none := by
  unfold findEntry delEdge
  rw [List.find?_eq_none]
  intro x hx hpx
  rw [List.mem_filter] at hx
  rw [hpx] at hx
  exact Bool.false_ne_true hx.2

lemma findEntry_delEdge_other (g : PGraph) (e q : Doc × Doc)
    (h : ∀ ent : (Doc × Doc) × ℚ, entryMatches q ent = true → entryMatches e ent = false) :
    findEntry (delEdge g e) q = findEntry g q := by
  unfold findEntry delEdge
  apply find?_filter_of_imp
  intro a ha
  rw [h a ha]
  rfl

lemma hasEdge_false_iff (g : PGraph) (e : Doc × Doc) :
    hasEdge g e = false ↔ findEntry g e = none := by
  unfold hasEdge
  cases h : findEntry g e <;> simp [h]

/-- The possible outcomes of one inner step of the weighting pass. -/
lemma passInner_cases (documents : List Doc) (i : Nat) (g : PGraph) (jw : Nat × ℚ) :
    passInner documents i g jw = g ∨
    (passInner documents i g jw =
        addEdge g (documents.getD i [], documents.getD jw.1 []) jw.2 ∧
      i ≠ jw.1 ∧ ¬ jw.2 < WEIGHT_THRESHOLD ∧
      hasEdge g (documents.getD i [], documents.getD jw.1 []) = false) := by
  by_cases h : i = jw.1 ∨ jw.2 < WEIGHT_THRESHOLD
  · left
    unfold passInner
    exact if_pos h
  · rw [not_or] at h
    by_cases h2 : hasEdge g (documents.getD i [], documents.getD jw.1 []) = true
    · left
      unfold passInner
      rw [if_neg (not_or.mpr h)]
      exact if_pos h2
    · right
      refine ⟨?_, h.1, h.2, Bool.eq_false_iff.mpr h2⟩
      unfold passInner
      rw [if_neg (not_or.mpr h)]
      exact if_neg h2

lemma passInner_nodes (documents : List Doc) (i : Nat) (g : PGraph) (jw : Nat × ℚ) :
    (passInner documents i g jw).nodes = g.nodes := by
  rcases passInner_cases documents i g jw with h | ⟨h, _⟩ <;> rw [h]
  rfl

/-- The possible outcomes of one inner step of `_create_valid_graph`. -/
lemma validStep_cases (nodes : List Doc) (i : Nat) (g : PGraph) (j : Nat) :
    (i = j ∧ validStep nodes i g j = g) ∨
    (i ≠ j ∧ validStep nodes i g j =
      addEdge (if hasEdge g (nodes.getD i [], nodes.getD j []) = true
        then delEdge g (nodes.getD i [], nodes.getD j []) else g)
        (nodes.getD i [], nodes.getD j []) 1) := by
  by_cases h : i = j
  · left
    exact ⟨h, by unfold validStep; exact if_pos h⟩
  · right
    exact ⟨h, by unfold validStep; exact if_neg h⟩

lemma validStep_nodes (nodes : List Doc) (i : Nat) (g : PGraph) (j : Nat) :
    (validStep nodes i g j).nodes = g.nodes := by
  rcases validStep_cases nodes i g j with ⟨_, h⟩ | ⟨_, h⟩
  · rw [h]
  · rw [h]
    split_ifs <;> rfl

lemma edgeWeightsPass_nodes (g : PGraph) (weights : List (List (Nat × ℚ))) :
    (edgeWeightsPass g weights).nodes = g.nodes := by
  show ((weights.enum).foldl
    (fun acc irow => irow.2.foldl (passInner g.nodes irow.1) acc) g).nodes = g.nodes
  refine foldl_preserve (Q := fun (a2 : PGraph) => a2.nodes = g.nodes) _ _ (fun acc irow _ h => ?_) rfl
  refine foldl_preserve (Q := fun (a2 : PGraph) => a2.nodes = g.nodes) _ _ (fun acc2 jw _ h2 => ?_) h
  show (passInner g.nodes irow.1 acc2 jw).nodes = g.nodes
  rw [passInner_nodes]
  exact h2

lemma createValidGraph_nodes (g : PGraph) : (createValidGraph g).nodes = g.nodes := by
  show ((List.range g.nodes.length).foldl
    (fun acc i => (List.range g.nodes.length).foldl (validStep g.nodes i) acc) g).nodes = g.nodes
  refine foldl_preserve (Q := fun (a2 : PGraph) => a2.nodes = g.nodes) _ _ (fun acc i _ h => ?_) rfl
  refine foldl_preserve (Q := fun (a2 : PGraph) => a2.nodes = g.nodes) _ _ (fun acc2 j _ h2 => ?_) h
  show (validStep g.nodes i acc2 j).nodes = g.nodes
  rw [validStep_nodes]
  exact h2

lemma buildGraph_nodes_nodup (seq : List Doc) : (buildGraph seq).nodes.Nodup := by
  suffices h : ∀ (l : List Doc) (acc : List Doc), acc.Nodup →
      (l.foldl (fun ns item => if item ∈ ns then ns else ns ++ [item]) acc).Nodup by
    exact h seq [] List.nodup_nil
  intro l
  induction l with
  | nil => exact fun acc h => h
  | cons x tl ih =>
    intro acc hacc
    by_cases hx : x ∈ acc
    · simpa [List.foldl_cons, hx] using ih acc hacc
    · have hnd : (acc ++ [x]).Nodup := by
        simp [List.nodup_append, hacc, hx]
      simpa [List.foldl_cons, hx] using ih (acc ++ [x]) hnd

lemma buildGraph_edges (seq : List Doc) : (buildGraph seq).edges = [] := rfl

/-- The flattened iteration order of the weighting pass: one element per
(enumerated row, row entry), in loop order. -/
def passSteps (weights : List (List (Nat × ℚ))) : List ((Nat × List (Nat × ℚ)) × (Nat × ℚ)) :=
  weights.enum.flatMap (fun irow => irow.2.map (fun jw => (irow, jw)))

lemma edgeWeightsPass_flat (g : PGraph) (weights : List (List (Nat × ℚ))) :
    edgeWeightsPass g weights =
      (passSteps weights).foldl (fun acc p => passInner g.nodes p.1.1 acc p.2) g := by
  show (weights.enum).foldl (fun acc irow => irow.2.foldl (passInner g.nodes irow.1) acc) g = _
  exact foldl_foldl_flat (fun irow acc jw => passInner g.nodes irow.1 acc jw)
    weights.enum (fun irow => irow.2) g

/-- The flattened index pairs of the `_create_valid_graph` double loop. -/
def indexPairs (n : Nat) : List (Nat × Nat) :=
  (List.range n).flatMap (fun i => (List.range n).map (fun j => (i, j)))

lemma mem_indexPairs {n : Nat} {p : Nat × Nat} : p ∈ indexPairs n ↔ p.1 < n ∧ p.2 < n := by
  unfold indexPairs
  rw [List.mem_flatMap]
  constructor
  · rintro ⟨i, hi, hp⟩
    rw [List.mem_map] at hp
    obtain ⟨j, hj, hpj⟩ := hp
    rw [← hpj]
    exact ⟨List.mem_range.mp hi, List.mem_range.mp hj⟩
  · rintro ⟨h1, h2⟩
    exact ⟨p.1, List.mem_range.mpr h1, List.mem_map.mpr ⟨p.2, List.mem_range.mpr h2, rfl⟩⟩

lemma createValidGraph_flat (g : PGraph) :
    createValidGraph g =
      (indexPairs g.nodes.length).foldl (fun acc p => validStep g.nodes p.1 acc p.2) g := by
  show (List.range g.nodes.length).foldl
      (fun acc i => (List.range g.nodes.length).foldl (validStep g.nodes i) acc) g = _
  exact foldl_foldl_flat (fun i acc j => validStep g.nodes i acc j)
    (List.range g.nodes.length) (fun _ => List.range g.nodes.length) g

/-- The add branch of `passInner`, reached exactly when the indices
differ, the weight is at or above the threshold, and the unordered pair
has no edge yet. -/
lemma passInner_of_qual (documents : List Doc) (i : Nat) (g : PGraph) (jw : Nat × ℚ)
    (hij : i ≠ jw.1) (hw : ¬ jw.2 < WEIGHT_THRESHOLD)
    (hhas : hasEdge g (documents.getD i [], documents.getD jw.1 []) = false) :
    passInner documents i g jw = addEdge g (documents.getD i [], documents.getD jw.1 []) jw.2 := by
  unfold passInner
  rw [if_neg (not_or.mpr ⟨hij, hw⟩)]
  exact if_neg (by rw [hhas]; exact Bool.false_ne_true)

/-- Every edge entry of the weighting pass over an initially edgeless
graph was added by some qualifying step, with weight at or above the
threshold. -/
lemma edgeWeightsPass_edges (g : PGraph) (weights : List (List (Nat × ℚ)))
    (h0 : g.edges = []) :
    ∀ ent ∈ (edgeWeightsPass g weights).edges,
      WEIGHT_THRESHOLD ≤ ent.2 ∧
      ∃ st ∈ passSteps weights, st.1.1 ≠ st.2.1 ∧
        ent.1 = (g.nodes.getD st.1.1 [], g.nodes.getD st.2.1 []) ∧ ent.2 = st.2.2 := by
  rw [edgeWeightsPass_flat]
  refine foldl_preserve
    (Q := fun (a2 : PGraph) => ∀ ent ∈ a2.edges,
      WEIGHT_THRESHOLD ≤ ent.2 ∧
      ∃ st ∈ passSteps weights, st.1.1 ≠ st.2.1 ∧
        ent.1 = (g.nodes.getD st.1.1 [], g.nodes.getD st.2.1 []) ∧ ent.2 = st.2.2)
    _ _ (fun acc st hst hacc => ?_) (fun ent h => absurd (h0 ▸ h) (List.not_mem_nil ent))
  intro ent hent
  rcases passInner_cases g.nodes st.1.1 acc st.2 with hc | ⟨hc, hij, hw, _⟩
  · rw [hc] at hent
    exact hacc ent hent
  · rw [hc] at hent
    show WEIGHT_THRESHOLD ≤ ent.2 ∧ _
    rcases List.mem_append.mp hent with hmem | hmem
    · exact hacc ent hmem
    · rw [List.mem_singleton] at hmem
      subst hmem
      exact ⟨not_lt.mp hw, st, hst, hij, rfl, rfl⟩

/-- If after the pass over an edgeless graph every stored weight is zero,
there are in fact no stored edges at all (added weights are positive). -/
lemma pass_allzero_no_edges (g : PGraph) (weights : List (List (Nat × ℚ)))
    (h0 : g.edges = [])
    (hz : (edgeWeightsPass g weights).edges.all (fun ent => decide (ent.2 = 0)) = true) :
    (edgeWeightsPass g weights).edges = [] := by
  rw [List.eq_nil_iff_forall_not_mem]
  intro ent hent
  have h1 := (edgeWeightsPass_edges g weights h0 ent hent).1
  have h2 : ent.2 = 0 := of_decide_eq_true (List.all_eq_true.mp hz ent hent)
  rw [h2] at h1
  have h3 : (0:ℚ) < WEIGHT_THRESHOLD := by decide
  exact absurd h1 (not_le.mpr h3)

/-- A `validStep` at indices of the unordered pair `(u, v)` leaves the
pair's stored entry equal to weight-1, whatever the incoming state. -/
lemma validStep_establish (nodes : List Doc) (i j : Nat) (acc : PGraph) (u v : Doc)
    (hij : i ≠ j)
    (hm : (nodes.getD i [], nodes.getD j []) = (u, v) ∨
      (nodes.getD i [], nodes.getD j []) = (v, u)) :
    findEntry (validStep nodes i acc j) (u, v) =
      some ((nodes.getD i [], nodes.getD j []), 1) := by
  rcases validStep_cases nodes i acc j with ⟨he, _⟩ | ⟨_, hstep⟩
  · exact absurd he hij
  · rw [hstep]
    have hbase : findEntry
        (if hasEdge acc (nodes.getD i [], nodes.getD j []) = true
          then delEdge acc (nodes.getD i [], nodes.getD j []) else acc) (u, v) = none := by
      by_cases hh : hasEdge acc (nodes.getD i [], nodes.getD j []) = true
      · rw [if_pos hh]
        rcases hm with hm | hm
        · rw [hm]
          exact findEntry_delEdge_self acc (u, v)
        · rw [hm, findEntry_swap _ u v]
          exact findEntry_delEdge_self acc (v, u)
      · rw [if_neg hh]
        have hf := (hasEdge_false_iff acc (nodes.getD i [], nodes.getD j [])).mp
          (Bool.eq_false_iff.mpr hh)
        rcases hm with hm | hm
        · rw [hm] at hf
          exact hf
        · rw [hm] at hf
          rw [findEntry_swap _ u v]
          exact hf
    have hmm : entryMatches (u, v) ((nodes.getD i [], nodes.getD j []), 1) = true := by
      apply decide_eq_true
      show (nodes.getD i [], nodes.getD j []) = (u, v) ∨
        (nodes.getD i [], nodes.getD j []) = (v, u)
      exact hm
    exact findEntry_addEdge_of_none_match _ _ _ _ hbase hmm

/-- A `validStep` on any index pair preserves the weight-1 stored entry
of the unordered pair `(u, v)`. -/
lemma validStep_preserve (nodes : List Doc) (i j : Nat) (acc : PGraph) (u v : Doc)
    (hq : ∃ a b : Doc, findEntry acc (u, v) = some ((a, b), 1) ∧
      ((a, b) = (u, v) ∨ (a, b) = (v, u))) :
    ∃ a b : Doc, findEntry (validStep nodes i acc j) (u, v) = some ((a, b), 1) ∧
      ((a, b) = (u, v) ∨ (a, b) = (v, u)) := by
  rcases validStep_cases nodes i acc j with ⟨_, hstep⟩ | ⟨hij, hstep⟩
  · rw [hstep]
    exact hq
  · by_cases hm : (nodes.getD i [], nodes.getD j []) = (u, v) ∨
      (nodes.getD i [], nodes.getD j []) = (v, u)
    · refine ⟨nodes.getD i [], nodes.getD j [], ?_, hm⟩
      exact validStep_establish nodes i j acc u v hij hm
    · rw [hstep]
      obtain ⟨a, b, hfind, hab⟩ := hq
      have hdis : ∀ ent : (Doc × Doc) × ℚ, entryMatches (u, v) ent = true →
          entryMatches (nodes.getD i [], nodes.getD j []) ent = false := by
        intro ent hent
        have hprop : ent.1 = (u, v) ∨ ent.1 = (v, u) := of_decide_eq_true hent
        apply decide_eq_false
        intro hcon
        rcases hcon with hcon | hcon
        · rcases hprop with hp | hp
          · exact hm (Or.inl (by rw [← hcon, hp]))
          · apply hm
            right
            have h1 : (nodes.getD i [], nodes.getD j []).1 = v := by rw [← hcon, hp]
            have h2 : (nodes.getD i [], nodes.getD j []).2 = u := by rw [← hcon, hp]
            exact Prod.ext h1 h2
        · rcases hprop with hp | hp
          · apply hm
            right
            have h1 : (nodes.getD j [], nodes.getD i []) = (u, v) := by rw [← hcon, hp]
            have h2 : nodes.getD i [] = v := congrArg Prod.snd h1
            have h3 : nodes.getD j [] = u := congrArg Prod.fst h1
            exact Prod.ext h2 h3
          · apply hm
            left
            have h1 : (nodes.getD j [], nodes.getD i []) = (v, u) := by rw [← hcon, hp]
            have h2 : nodes.getD i [] = u := congrArg Prod.snd h1
            have h3 : nodes.getD j [] = v := congrArg Prod.fst h1
            exact Prod.ext h2 h3
      have hbase : findEntry
          (if hasEdge acc (nodes.getD i [], nodes.getD j []) = true
            then delEdge acc (nodes.getD i [], nodes.getD j []) else acc) (u, v) =
          some ((a, b), 1) := by
        by_cases hh : hasEdge acc (nodes.getD i [], nodes.getD j []) = true
        · rw [if_pos hh, findEntry_delEdge_other acc _ (u, v) hdis]
          exact hfind
        · rw [if_neg hh]
          exact hfind
      exact ⟨a, b, findEntry_addEdge_of_some _ _ _ _ _ hbase, hab⟩

/-- Running `_create_valid_graph` on an edgeless graph with distinct nodes yields
the complete weight-1 graph. -/
lemma createValidGraph_complete (g : PGraph) (hnd : g.nodes.Nodup) (h0 : g.edges = []) :
    (∀ u ∈ g.nodes, ∀ v ∈ g.nodes, u ≠ v →
      hasEdge (createValidGraph g) (u, v) = true ∧
      edgeWeight (createValidGraph g) (u, v) = 1) ∧
    (∀ ent ∈ (createValidGraph g).edges, ent.2 = 1 ∧ ent.1.1 ≠ ent.1.2) := by
  constructor
  · intro u hu v hv huv
    obtain ⟨iu, hiu, hgu⟩ := List.getElem_of_mem hu
    obtain ⟨iv, hiv, hgv⟩ := List.getElem_of_mem hv
    have hij : iu ≠ iv := by
      intro h
      subst h
      exact huv (hgu.symm.trans hgv)
    have hgu2 : g.nodes.getD iu [] = u := by rw [List.getD_eq_getElem _ _ hiu, hgu]
    have hgv2 : g.nodes.getD iv [] = v := by rw [List.getD_eq_getElem _ _ hiv, hgv]
    have hQ : ∃ a b : Doc, findEntry (createValidGraph g) (u, v) = some ((a, b), 1) ∧
        ((a, b) = (u, v) ∨ (a, b) = (v, u)) := by
      rw [createValidGraph_flat]
      refine foldl_establish
        (Q := fun (a2 : PGraph) => ∃ a b : Doc, findEntry a2 (u, v) = some ((a, b), 1) ∧
          ((a, b) = (u, v) ∨ (a, b) = (v, u)))
        (iu, iv) _ _ (mem_indexPairs.mpr ⟨hiu, hiv⟩) (fun s2 => ?_) (fun s2 x _ hs => ?_)
      · refine ⟨g.nodes.getD iu [], g.nodes.getD iv [], ?_, ?_⟩
        · exact validStep_establish g.nodes iu iv s2 u v hij
            (Or.inl (by rw [hgu2, hgv2]))
        · left
          rw [hgu2, hgv2]
      · exact validStep_preserve g.nodes x.1 x.2 s2 u v hs
    obtain ⟨a, b, hfind, _⟩ := hQ
    constructor
    · unfold hasEdge
      rw [hfind]
      rfl
    · unfold edgeWeight
      rw [hfind]
      rfl
  · rw [createValidGraph_flat]
    refine foldl_preserve
      (Q := fun (a2 : PGraph) => ∀ ent ∈ a2.edges, ent.2 = 1 ∧ ent.1.1 ≠ ent.1.2)
      _ _ (fun acc x hx hacc => ?_) (fun ent h => absurd (h0 ▸ h) (List.not_mem_nil ent))
    intro ent hent
    rcases validStep_cases g.nodes x.1 acc x.2 with ⟨_, hstep⟩ | ⟨hij, hstep⟩
    · rw [hstep] at hent
      exact hacc ent hent
    · rw [hstep] at hent
      have hx2 := mem_indexPairs.mp hx
      have hbase : ∀ ent2 ∈ (if hasEdge acc (g.nodes.getD x.1 [], g.nodes.getD x.2 []) = true
          then delEdge acc (g.nodes.getD x.1 [], g.nodes.getD x.2 []) else acc).edges,
          ent2 ∈ acc.edges := by
        intro ent2 h2
        by_cases hh : hasEdge acc (g.nodes.getD x.1 [], g.nodes.getD x.2 []) = true
        · rw [if_pos hh] at h2
          exact List.mem_of_mem_filter h2
        · rw [if_neg hh] at h2
          exact h2
      rcases List.mem_append.mp hent with hmem | hmem
      · exact hacc ent (hbase ent hmem)
      · rw [List.mem_singleton] at hmem
        subst hmem
        refine ⟨rfl, ?_⟩
        show g.nodes.getD x.1 [] ≠ g.nodes.getD x.2 []
        rw [List.getD_eq_getElem _ _ hx2.1, List.getD_eq_getElem _ _ hx2.2]
        intro hcon
        exact hij (hnd.getElem_inj_iff.mp hcon)

/-- C6: if, after the pairwise weighting pass, every edge of the
similarity graph has weight exactly zero (including the vacuous case
where no edge met the threshold), the Graph Weighter discards all
existing edges and rebuilds a complete graph over all nodes: every
unordered pair of distinct nodes is connected and every stored edge has
weight exactly 1 with distinct endpoints. -/
theorem c6_allzero_fallback_complete (bm25 : List Doc → List (List (Nat × ℚ)))
    (seq : List Doc)
    (hz : (edgeWeightsPass (buildGraph seq) (bm25 (buildGraph seq).nodes)).edges.all
      (fun ent => decide (ent.2 = 0)) = true) :
    (setGraphEdgeWeights bm25 (buildGraph seq)).nodes = (buildGraph seq).nodes ∧
    (∀ u ∈ (buildGraph seq).nodes, ∀ v ∈ (buildGraph seq).nodes, u ≠ v →
      hasEdge (setGraphEdgeWeights bm25 (buildGraph seq)) (u, v) = true ∧
      edgeWeight (setGraphEdgeWeights bm25 (buildGraph seq)) (u, v) = 1) ∧
    (∀ ent ∈ (setGraphEdgeWeights bm25 (buildGraph seq)).edges,
      ent.2 = 1 ∧ ent.1.1 ≠ ent.1.2) := by
  have hsg : setGraphEdgeWeights bm25 (buildGraph seq)
      = createValidGraph (edgeWeightsPass (buildGraph seq) (bm25 (buildGraph seq).nodes)) := by
    show (if (edgeWeightsPass (buildGraph seq) (bm25 (buildGraph seq).nodes)).edges.all
        (fun ent => decide (ent.2 = 0)) = true
      then createValidGraph (edgeWeightsPass (buildGraph seq) (bm25 (buildGraph seq).nodes))
      else edgeWeightsPass (buildGraph seq) (bm25 (buildGraph seq).nodes)) = _
    exact if_pos hz
  have hn1 : (edgeWeightsPass (buildGraph seq) (bm25 (buildGraph seq).nodes)).nodes
      = (buildGraph seq).nodes := edgeWeightsPass_nodes _ _
  have he1 : (edgeWeightsPass (buildGraph seq) (bm25 (buildGraph seq).nodes)).edges = [] :=
    pass_allzero_no_edges _ _ (buildGraph_edges seq) hz
  have hnd : (edgeWeightsPass (buildGraph seq) (bm25 (buildGraph seq).nodes)).nodes.Nodup := by
    rw [hn1]
    exact buildGraph_nodes_nodup seq
  obtain ⟨hcomp, hents⟩ := createValidGraph_complete _ hnd he1
  refine ⟨?_, ?_, ?_⟩
  · rw [hsg, createValidGraph_nodes, hn1]
  · intro u hu v hv huv
    have hu2 : u ∈ (edgeWeightsPass (buildGraph seq) (bm25 (buildGraph seq).nodes)).nodes := by
      rw [hn1]
      exact hu
    have hv2 : v ∈ (edgeWeightsPass (buildGraph seq) (bm25 (buildGraph seq).nodes)).nodes := by
      rw [hn1]
      exact hv
    rw [hsg]
    exact hcomp u hu2 v hv2 huv
  · intro ent hent
    rw [hsg] at hent
    exact hents ent hent

/-- Witness for C6 at a concrete three-node corpus whose BM25 collaborator
reports no weights at all (vacuous all-zero). -/
theorem c6_allzero_fallback_complete_witness :
    ((edgeWeightsPass (buildGraph [[(0, 1)], [(1, 1)], [(2, 1)]])
        ((fun _ => []) (buildGraph [[(0, 1)], [(1, 1)], [(2, 1)]]).nodes)).edges.all
      (fun ent => decide (ent.2 = 0)) = true) ∧
    ((setGraphEdgeWeights (fun _ => []) (buildGraph [[(0, 1)], [(1, 1)], [(2, 1)]])).nodes
        = (buildGraph [[(0, 1)], [(1, 1)], [(2, 1)]]).nodes ∧
      (∀ u ∈ (buildGraph [[(0, 1)], [(1, 1)], [(2, 1)]]).nodes,
        ∀ v ∈ (buildGraph [[(0, 1)], [(1, 1)], [(2, 1)]]).nodes, u ≠ v →
        hasEdge (setGraphEdgeWeights (fun _ => []) (buildGraph [[(0, 1)], [(1, 1)], [(2, 1)]]))
            (u, v) = true ∧
        edgeWeight (setGraphEdgeWeights (fun _ => []) (buildGraph [[(0, 1)], [(1, 1)], [(2, 1)]]))
            (u, v) = 1) ∧
      (∀ ent ∈ (setGraphEdgeWeights (fun _ => [])
          (buildGraph [[(0, 1)], [(1, 1)], [(2, 1)]])).edges,
        ent.2 = 1 ∧ ent.1.1 ≠ ent.1.2)) :=
  ⟨by decide, c6_allzero_fallback_complete (fun _ => []) [[(0, 1)], [(1, 1)], [(2, 1)]] (by decide)⟩

/-- Whether a pass step qualifies (distinct indices, weight at or above
the threshold) and concerns the unordered pair `(u, v)`. -/
def stepHits (documents : List Doc) (u v : Doc)
    (st : (Nat × List (Nat × ℚ)) × (Nat × ℚ)) : Bool :=
  decide (st.1.1 ≠ st.2.1 ∧ ¬ st.2.2 < WEIGHT_THRESHOLD ∧
    ((documents.getD st.1.1 [], documents.getD st.2.1 []) = (u, v) ∨
      (documents.getD st.1.1 [], documents.getD st.2.1 []) = (v, u)))

/-- Once the pass has a stored entry for a pair, later steps never change
it (edges are only added, and only when the pair is absent). -/
lemma pass_find_some (documents : List Doc) (u v : Doc) (r : (Doc × Doc) × ℚ) :
    ∀ (steps : List ((Nat × List (Nat × ℚ)) × (Nat × ℚ))) (acc : PGraph),
      findEntry acc (u, v) = some r →
      findEntry (steps.foldl (fun a2 p => passInner documents p.1.1 a2 p.2) acc) (u, v) = some r
  | [], _, h => h
  | st :: tl, acc, h => by
    rw [List.foldl_cons]
    refine pass_find_some documents u v r tl _ ?_
    rcases passInner_cases documents st.1.1 acc st.2 with hc | ⟨hc, _⟩
    · rw [hc]
      exact h
    · rw [hc]
      exact findEntry_addEdge_of_some _ _ _ _ _ h

/-- While the pair `(u, v)` has no stored entry, the pass stores for it
the edge of the FIRST qualifying step that concerns the pair (in loop
order), with that step's weight. -/
lemma pass_find_none (documents : List Doc) (u v : Doc) :
    ∀ (steps : List ((Nat × List (Nat × ℚ)) × (Nat × ℚ))) (acc : PGraph),
      findEntry acc (u, v) = none →
      findEntry (steps.foldl (fun a2 p => passInner documents p.1.1 a2 p.2) acc) (u, v) =
        ((steps.filter (stepHits documents u v)).head?).map
          (fun st => ((documents.getD st.1.1 [], documents.getD st.2.1 []), st.2.2))
  | [], acc, h => by
    rw [List.foldl_nil, List.filter_nil, List.head?_nil]
    exact h
  | st :: tl, acc, h => by
    rw [List.foldl_cons]
    by_cases hq : stepHits documents u v st = true
    · obtain ⟨hij, hw, hm⟩ := of_decide_eq_true hq
      have hhas : hasEdge acc (documents.getD st.1.1 [], documents.getD st.2.1 []) = false := by
        rw [hasEdge_false_iff]
        rcases hm with hm | hm
        · rw [hm]
          exact h
        · rw [hm, ← findEntry_swap]
          exact h
      rw [passInner_of_qual documents st.1.1 acc st.2 hij hw hhas]
      have hmm : entryMatches (u, v)
          ((documents.getD st.1.1 [], documents.getD st.2.1 []), st.2.2) = true := by
        apply decide_eq_true
        show (documents.getD st.1.1 [], documents.getD st.2.1 []) = (u, v) ∨
          (documents.getD st.1.1 [], documents.getD st.2.1 []) = (v, u)
        exact hm
      have hfind := findEntry_addEdge_of_none_match acc (u, v) _ st.2.2 h hmm
      rw [pass_find_some documents u v _ tl _ hfind,
        List.filter_cons_of_pos hq, List.head?_cons]
      rfl
    · rw [List.filter_cons_of_neg hq]
      refine pass_find_none documents u v tl _ ?_
      rcases passInner_cases documents st.1.1 acc st.2 with hc | ⟨hc, hij, hw, _⟩
      · rw [hc]
        exact h
      · rw [hc]
        refine findEntry_addEdge_of_none_nomatch _ _ _ _ h ?_
        intro hmm
        apply hq
        apply decide_eq_true
        refine ⟨hij, hw, ?_⟩
        exact of_decide_eq_true hmm

/-- C9: after the pairwise weighting pass (before any degeneracy
fallback) over the freshly built graph, every stored edge has weight at
or above the 1e-3 threshold (hence non-negative), there are no
self-edges, each unordered pair of nodes carries at most one stored
weight, and the stored entry of any unordered pair is exactly the one of
the FIRST qualifying step of the loop order that concerns the pair — a
later opposite-direction weight is discarded. -/
theorem c9_pass_invariants (seq : List Doc) (weights : List (List (Nat × ℚ)))
    (hb : ∀ st ∈ passSteps weights,
      st.1.1 < (buildGraph seq).nodes.length ∧ st.2.1 < (buildGraph seq).nodes.length) :
    (∀ ent ∈ (edgeWeightsPass (buildGraph seq) weights).edges,
      (0:ℚ) ≤ ent.2 ∧ WEIGHT_THRESHOLD ≤ ent.2) ∧
    (∀ ent ∈ (edgeWeightsPass (buildGraph seq) weights).edges, ent.1.1 ≠ ent.1.2) ∧
    List.Pairwise (fun ent1 ent2 => ¬ (ent1.1 = ent2.1 ∨ ent1.1 = (ent2.1.2, ent2.1.1)))
      (edgeWeightsPass (buildGraph seq) weights).edges ∧
    (∀ u v : Doc,
      findEntry (edgeWeightsPass (buildGraph seq) weights) (u, v) =
        ((passSteps weights).filter (stepHits (buildGraph seq).nodes u v)).head?.map
          (fun st => (((buildGraph seq).nodes.getD st.1.1 [],
            (buildGraph seq).nodes.getD st.2.1 []), st.2.2))) := by
  have hnd : (buildGraph seq).nodes.Nodup := buildGraph_nodes_nodup seq
  have hmain : (∀ ent ∈ (edgeWeightsPass (buildGraph seq) weights).edges,
      WEIGHT_THRESHOLD ≤ ent.2 ∧ ent.1.1 ≠ ent.1.2) ∧
      List.Pairwise (fun ent1 ent2 => ¬ (ent1.1 = ent2.1 ∨ ent1.1 = (ent2.1.2, ent2.1.1)))
        (edgeWeightsPass (buildGraph seq) weights).edges := by
    rw [edgeWeightsPass_flat]
    refine foldl_preserve
      (Q := fun (a2 : PGraph) =>
        (∀ ent ∈ a2.edges, WEIGHT_THRESHOLD ≤ ent.2 ∧ ent.1.1 ≠ ent.1.2) ∧
        List.Pairwise (fun ent1 ent2 => ¬ (ent1.1 = ent2.1 ∨ ent1.1 = (ent2.1.2, ent2.1.1)))
          a2.edges)
      _ _ (fun acc st hst hacc => ?_)
      ⟨fun ent h => absurd ((buildGraph_edges seq) ▸ h) (List.not_mem_nil ent),
        by rw [buildGraph_edges seq]; exact List.Pairwise.nil⟩
    rcases passInner_cases (buildGraph seq).nodes st.1.1 acc st.2 with hc | ⟨hc, hij, hw, hhas⟩
    · rw [hc]
      exact hacc
    · rw [hc]
      have hb2 := hb st hst
      have hne : (buildGraph seq).nodes.getD st.1.1 [] ≠ (buildGraph seq).nodes.getD st.2.1 [] := by
        rw [List.getD_eq_getElem _ _ hb2.1, List.getD_eq_getElem _ _ hb2.2]
        intro hcon
        exact hij (hnd.getElem_inj_iff.mp hcon)
      have hnomatch := (hasEdge_false_iff acc _).mp hhas
      unfold findEntry at hnomatch
      rw [List.find?_eq_none] at hnomatch
      constructor
      · intro ent hent
        rcases List.mem_append.mp hent with hmem | hmem
        · exact hacc.1 ent hmem
        · rw [List.mem_singleton] at hmem
          subst hmem
          exact ⟨not_lt.mp hw, hne⟩
      · show List.Pairwise _ (acc.edges ++ [_])
        rw [List.pairwise_append]
        refine ⟨hacc.2, List.pairwise_singleton _ _, ?_⟩
        intro ent1 h1 ent2 h2
        rw [List.mem_singleton] at h2
        subst h2
        have := hnomatch ent1 h1
        intro hcon
        exact this (decide_eq_true hcon)
  refine ⟨?_, ?_, hmain.2, ?_⟩
  · intro ent hent
    have h1 := (hmain.1 ent hent).1
    have h0 : (0:ℚ) ≤ WEIGHT_THRESHOLD := by decide
    exact ⟨le_trans h0 h1, h1⟩
  · intro ent hent
    exact (hmain.1 ent hent).2
  · intro u v
    rw [edgeWeightsPass_flat]
    exact pass_find_none (buildGraph seq).nodes u v (passSteps weights) _ rfl

/-- Witness for C9: two nodes, both directions meeting the threshold; the
stored entry is the first direction's, the reverse weight is discarded. -/
theorem c9_pass_invariants_witness :
    (∀ st ∈ passSteps [[(1, mkRat 1 2)], [(0, mkRat 2 3)]],
      st.1.1 < (buildGraph [[(0, 1)], [(1, 1)]]).nodes.length ∧
      st.2.1 < (buildGraph [[(0, 1)], [(1, 1)]]).nodes.length) ∧
    ((∀ ent ∈ (edgeWeightsPass (buildGraph [[(0, 1)], [(1, 1)]])
        [[(1, mkRat 1 2)], [(0, mkRat 2 3)]]).edges,
      (0:ℚ) ≤ ent.2 ∧ WEIGHT_THRESHOLD ≤ ent.2) ∧
    (∀ ent ∈ (edgeWeightsPass (buildGraph [[(0, 1)], [(1, 1)]])
        [[(1, mkRat 1 2)], [(0, mkRat 2 3)]]).edges, ent.1.1 ≠ ent.1.2) ∧
    List.Pairwise (fun ent1 ent2 => ¬ (ent1.1 = ent2.1 ∨ ent1.1 = (ent2.1.2, ent2.1.1)))
      (edgeWeightsPass (buildGraph [[(0, 1)], [(1, 1)]])
        [[(1, mkRat 1 2)], [(0, mkRat 2 3)]]).edges ∧
    (∀ u v : Doc,
      findEntry (edgeWeightsPass (buildGraph [[(0, 1)], [(1, 1)]])
          [[(1, mkRat 1 2)], [(0, mkRat 2 3)]]) (u, v) =
        ((passSteps [[(1, mkRat 1 2)], [(0, mkRat 2 3)]]).filter
          (stepHits (buildGraph [[(0, 1)], [(1, 1)]]).nodes u v)).head?.map
          (fun st => (((buildGraph [[(0, 1)], [(1, 1)]]).nodes.getD st.1.1 [],
            (buildGraph [[(0, 1)], [(1, 1)]]).nodes.getD st.2.1 []), st.2.2)))) :=
  ⟨by decide, c9_pass_invariants [[(0, 1)], [(1, 1)]] [[(1, mkRat 1 2)], [(0, mkRat 2 3)]]
    (by decide)⟩

/-! Helper lemmas for the corpus ranker. -/

/-- Truncation of the exact product agrees with the mathematical floor
for a non-negative ratio. -/
lemma truncMulNat_eq_floor (n : Nat) (rv : ℚ) (h : 0 ≤ rv) :
    truncMulNat n rv = ⌊(n : ℚ) * rv⌋ := by
  have hq : (n : ℚ) * rv = (((n : ℤ) * rv.num : ℤ) : ℚ) / ((rv.den : ℕ) : ℚ) := by
    conv_lhs => rw [← Rat.num_div_den rv]
    push_cast
    ring
  rw [hq, Rat.floor_intCast_div_natCast]
  exact Int.tdiv_eq_ediv (mul_nonneg (Int.natCast_nonneg n) (Rat.num_nonneg.mpr h))
    (Int.natCast_nonneg _)

/-- For a ratio in `(0, 1]` the floor of `n·ratio` is at most `n`. -/
lemma floor_mul_le (n : Nat) (rv : ℚ) (h2 : rv ≤ 1) :
    (⌊(n : ℚ) * rv⌋).toNat ≤ n := by
  rw [Int.toNat_le]
  calc ⌊(n : ℚ) * rv⌋ ≤ ⌊(n : ℚ)⌋ :=
        Int.floor_le_floor (mul_le_of_le_one_right (Nat.cast_nonneg n) h2)
    _ = (n : ℤ) := Int.floor_natCast n

lemma summarizeCorpus_of_empty (bm25 : List Doc → List (List (Nat × ℚ)))
    (prune : PGraph → PGraph) (pagerank : PGraph → Doc → Option ℚ)
    (corpus : List Doc) (rv : ℚ) (h0 : corpus.length = 0) :
    summarizeCorpus bm25 prune pagerank corpus rv = [] := by
  simp only [summarizeCorpus]
  rw [if_pos h0]

lemma summarizeCorpus_of_big (bm25 : List Doc → List (List (Nat × ℚ)))
    (prune : PGraph → PGraph) (pagerank : PGraph → Doc → Option ℚ)
    (corpus : List Doc) (rv : ℚ) (h0 : ¬ corpus.length = 0)
    (h3 : ¬ (prune (setGraphEdgeWeights bm25
      (buildGraph (buildHasheableCorpus corpus)))).nodes.length < 3) :
    summarizeCorpus bm25 prune pagerank corpus rv =
      (((buildHasheableCorpus corpus).insertionSort
          (scoreGe (pagerank (prune (setGraphEdgeWeights bm25
            (buildGraph (buildHasheableCorpus corpus))))))).take
        (truncMulNat corpus.length rv).toNat).map (fun doc => doc) := by
  simp only [summarizeCorpus]
  rw [if_neg h0, if_neg h3]

/-- C5: for every corpus with at least 3 reachable graph nodes after
pruning and every ratio in `(0, 1]`, `summarize_corpus` returns exactly
`floor(n * ratio)` documents, ordered by importance score descending
(pagerank score of the pruned graph, missing nodes scoring 0). -/
theorem c5_corpus_ranker_floor_and_order (bm25 : List Doc → List (List (Nat × ℚ)))
    (prune : PGraph → PGraph) (pagerank : PGraph → Doc → Option ℚ)
    (corpus : List Doc) (rv : ℚ) (h1 : 0 < rv) (h2 : rv ≤ 1)
    (h3 : 3 ≤ (prune (setGraphEdgeWeights bm25
      (buildGraph (buildHasheableCorpus corpus)))).nodes.length) :
    (summarizeCorpus bm25 prune pagerank corpus rv).length
      = (⌊(corpus.length : ℚ) * rv⌋).toNat ∧
    List.Pairwise (fun a b =>
      ((pagerank (prune (setGraphEdgeWeights bm25
          (buildGraph (buildHasheableCorpus corpus)))) b).getD 0) ≤
      ((pagerank (prune (setGraphEdgeWeights bm25
          (buildGraph (buildHasheableCorpus corpus)))) a).getD 0))
      (summarizeCorpus bm25 prune pagerank corpus rv) := by
  by_cases h0 : corpus.length = 0
  · rw [summarizeCorpus_of_empty bm25 prune pagerank corpus rv h0]
    constructor
    · rw [h0]
      simp
    · exact List.Pairwise.nil
  · have h3n : ¬ (prune (setGraphEdgeWeights bm25
        (buildGraph (buildHasheableCorpus corpus)))).nodes.length < 3 := not_lt.mpr h3
    rw [summarizeCorpus_of_big bm25 prune pagerank corpus rv h0 h3n]
    have hperm := List.perm_insertionSort
      (scoreGe (pagerank (prune (setGraphEdgeWeights bm25
        (buildGraph (buildHasheableCorpus corpus))))))
      (buildHasheableCorpus corpus)
    have hlen : ((buildHasheableCorpus corpus).insertionSort
        (scoreGe (pagerank (prune (setGraphEdgeWeights bm25
          (buildGraph (buildHasheableCorpus corpus))))))).length = corpus.length := by
      rw [hperm.length_eq]
      unfold buildHasheableCorpus
      rw [List.length_map]
    have hfl : truncMulNat corpus.length rv = ⌊(corpus.length : ℚ) * rv⌋ :=
      truncMulNat_eq_floor _ _ (le_of_lt h1)
    constructor
    · rw [List.map_id', List.length_take, hlen, hfl]
      exact min_eq_left (floor_mul_le corpus.length rv h2)
    · rw [List.map_id']
      refine List.Pairwise.sublist (List.take_sublist _ _) ?_
      exact List.sorted_insertionSort
        (scoreGe (pagerank (prune (setGraphEdgeWeights bm25
          (buildGraph (buildHasheableCorpus corpus))))))
        (buildHasheableCorpus corpus)

/-- Witness for C5: three distinct documents, ratio 1/2, no BM25 weights
(complete-graph fallback keeps 3 nodes), identity pruning, empty
pagerank map. -/
theorem c5_corpus_ranker_floor_and_order_witness :
    ((0 : ℚ) < mkRat 1 2 ∧ mkRat 1 2 ≤ 1 ∧
      3 ≤ (id (setGraphEdgeWeights (fun _ => [])
        (buildGraph (buildHasheableCorpus [[(0, 1)], [(1, 1)], [(2, 1)]])))).nodes.length) ∧
    ((summarizeCorpus (fun _ => []) id (fun _ _ => none)
        [[(0, 1)], [(1, 1)], [(2, 1)]] (mkRat 1 2)).length
      = (⌊(([[(0, 1)], [(1, 1)], [(2, 1)]] : List Doc).length : ℚ) * mkRat 1 2⌋).toNat ∧
    List.Pairwise (fun a b =>
      (((fun (_ : PGraph) (_ : Doc) => (none : Option ℚ)) (id (setGraphEdgeWeights (fun _ => [])
          (buildGraph (buildHasheableCorpus [[(0, 1)], [(1, 1)], [(2, 1)]])))) b).getD 0) ≤
      (((fun (_ : PGraph) (_ : Doc) => (none : Option ℚ)) (id (setGraphEdgeWeights (fun _ => [])
          (buildGraph (buildHasheableCorpus [[(0, 1)], [(1, 1)], [(2, 1)]])))) a).getD 0))
      (summarizeCorpus (fun _ => []) id (fun _ _ => none)
        [[(0, 1)], [(1, 1)], [(2, 1)]] (mkRat 1 2))) :=
  ⟨⟨by decide, by decide, by decide⟩,
    c5_corpus_ranker_floor_and_order (fun _ => []) id (fun _ _ => none)
      [[(0, 1)], [(1, 1)], [(2, 1)]] (mkRat 1 2) (by decide) (by decide) (by decide)⟩

/-! Helper lemmas for the heap model. -/

lemma heapRead_append_lt (h : Heap) (xs : List Doc) (r : Nat) (hr : r < h.length) :
    heapRead (h ++ [xs]) r = heapRead h r :=
  List.getD_append _ _ _ _ hr

lemma heapRead_append_self (h : Heap) (xs : List Doc) :
    heapRead (h ++ [xs]) h.length = xs := by
  unfold heapRead
  rw [List.getD_eq_getElem?_getD, List.getElem?_append_right (le_refl h.length),
    Nat.sub_self]
  rfl

lemma heapRead_write_ne (h : Heap) (r r2 : Nat) (xs : List Doc) (hne : r2 ≠ r) :
    heapRead (heapWrite h r2 xs) r = heapRead h r := by
  unfold heapRead heapWrite
  rw [List.getD_eq_getElem?_getD, List.getD_eq_getElem?_getD, List.getElem?_set_ne hne]

lemma heapRead_write_self (h : Heap) (r : Nat) (xs : List Doc) (hr : r < h.length) :
    heapRead (heapWrite h r xs) r = xs := by
  unfold heapRead heapWrite
  rw [List.getD_eq_getElem?_getD, List.getElem?_set_self hr]
  rfl

lemma summarizeCorpus_of_small (bm25 : List Doc → List (List (Nat × ℚ)))
    (prune : PGraph → PGraph) (pagerank : PGraph → Doc → Option ℚ)
    (corpus : List Doc) (rv : ℚ) (h0 : ¬ corpus.length = 0)
    (h3 : (prune (setGraphEdgeWeights bm25
      (buildGraph (buildHasheableCorpus corpus)))).nodes.length < 3) :
    summarizeCorpus bm25 prune pagerank corpus rv = [] := by
  simp only [summarizeCorpus]
  rw [if_neg h0, if_pos h3]

/-- C10: `summarize_corpus` leaves its corpus argument unchanged: the
hashable corpus is a freshly allocated list, the in-place sort writes
only to that fresh list, and the result is rebuilt from copies — so
after the call the caller's list is element-for-element what it was
before, and the heap-level run returns exactly the pure result. -/
theorem c10_corpus_argument_unchanged (bm25 : List Doc → List (List (Nat × ℚ)))
    (prune : PGraph → PGraph) (pagerank : PGraph → Doc → Option ℚ)
    (h0 : Heap) (corpusRef : Nat) (rv : ℚ) (href : corpusRef < h0.length) :
    heapRead (summarizeCorpusHeap bm25 prune pagerank h0 corpusRef rv).1 corpusRef
      = heapRead h0 corpusRef ∧
    (summarizeCorpusHeap bm25 prune pagerank h0 corpusRef rv).2
      = summarizeCorpus bm25 prune pagerank (heapRead h0 corpusRef) rv := by
  have hne : corpusRef ≠ h0.length := Nat.ne_of_lt href
  have hr1 : heapRead (h0 ++ [buildHasheableCorpus (heapRead h0 corpusRef)]) corpusRef
      = heapRead h0 corpusRef :=
    heapRead_append_lt h0 _ corpusRef href
  have hrh : heapRead (h0 ++ [buildHasheableCorpus (heapRead h0 corpusRef)]) h0.length
      = buildHasheableCorpus (heapRead h0 corpusRef) :=
    heapRead_append_self h0 _
  simp only [summarizeCorpusHeap, heapAlloc, hrh]
  by_cases hc0 : (heapRead h0 corpusRef).length = 0
  · rw [if_pos hc0, summarizeCorpus_of_empty bm25 prune pagerank _ rv hc0]
    exact ⟨hr1, rfl⟩
  · rw [if_neg hc0]
    by_cases h3 : (prune (setGraphEdgeWeights bm25
        (buildGraph (buildHasheableCorpus (heapRead h0 corpusRef))))).nodes.length < 3
    · rw [if_pos h3]
      refine ⟨hr1, ?_⟩
      rw [summarizeCorpus_of_small bm25 prune pagerank _ rv hc0 h3]
    · rw [if_neg h3]
      constructor
      · show heapRead (heapWrite (h0 ++ [buildHasheableCorpus (heapRead h0 corpusRef)])
          h0.length _) corpusRef = heapRead h0 corpusRef
        rw [heapRead_write_ne _ _ _ _ (fun hx => hne hx.symm)]
        exact hr1
      · rw [summarizeCorpus_of_big bm25 prune pagerank _ rv hc0 h3]
        show (((heapRead (heapWrite (h0 ++ [buildHasheableCorpus (heapRead h0 corpusRef)])
            h0.length _) h0.length)).take _).map (fun doc => doc) = _
        rw [heapRead_write_self _ _ _ (by rw [List.length_append]; simp)]

/-- Witness for C10 at a one-entry heap. -/
theorem c10_corpus_argument_unchanged_witness :
    (0 < ([[[(0, 1)], [(1, 1)]]] : Heap).length) ∧
    (heapRead (summarizeCorpusHeap (fun _ => []) id (fun _ _ => none)
        [[[(0, 1)], [(1, 1)]]] 0 (mkRat 1 1)).1 0
      = heapRead [[[(0, 1)], [(1, 1)]]] 0 ∧
    (summarizeCorpusHeap (fun _ => []) id (fun _ _ => none)
        [[[(0, 1)], [(1, 1)]]] 0 (mkRat 1 1)).2
      = summarizeCorpus (fun _ => []) id (fun _ _ => none)
        (heapRead [[[(0, 1)], [(1, 1)]]] 0) (mkRat 1 1)) :=
  ⟨by decide, c10_corpus_argument_unchanged (fun _ => []) id (fun _ _ => none)
    [[[(0, 1)], [(1, 1)]]] 0 (mkRat 1 1) (by decide)⟩
